import Mathlib

/-!
Verification of the xyz terminal application (agenda/month calendar TUI).

Shallow embedding conventions:
* Python `datetime` values are modelled as `Int` (a point on the timeline,
  totally ordered, compared only for `=`, `≤`, `<` in the sources).
* Python `float` metric values (`p`, `q`, `r`) are modelled as `Rat`:
  the sources only compare them for equality and order them as sort keys,
  and every finite float is a rational number.
* Python `str` values are modelled as `String` (or `List Char` where the
  text-wrapping code manipulates individual characters).
* Lists keep their Python order; Python `sorted` (a stable sort with a
  total-preorder key) is modelled with `List.mergeSort`, which is stable.
-/

/-! ## Data model (src/models.py) -/

/-- `models.JTBD`: the x/y/z coordinate record of an event. -/
structure JTBD where
  x : Int
  y : String
  z : String
deriving DecidableEq, Repr

/-- `models.NorthStarMetrics`: the p/q/r metrics of an event. -/
structure NorthStarMetrics where
  p : Rat
  q : Rat
  r : Rat
deriving DecidableEq, Repr

/-- `models.Event`: bucket + JTBD coordinates + metrics. -/
structure Event where
  bucket : String
  jtbd : JTBD
  nsm : NorthStarMetrics
deriving DecidableEq, Repr

/-! ## Store (src/store.py) -/

/-- The seven-field match test of `store.upsert_event` (lines 151-160):
`e.bucket == original.bucket and e.jtbd.x == original.jtbd.x and ...`. -/
def matchesOriginal (e original : Event) : Bool :=
  e.bucket == original.bucket &&
  e.jtbd.x == original.jtbd.x &&
  e.jtbd.y == original.jtbd.y &&
  e.jtbd.z == original.jtbd.z &&
  e.nsm.p == original.nsm.p &&
  e.nsm.q == original.nsm.q &&
  e.nsm.r == original.nsm.r

/-- The accumulation loop of `store.upsert_event`: walk the list with a
`replaced` flag, skipping the first event that matches `original`. -/
def dropFirstMatch : List Event → Event → Bool → List Event
  | [], _, _ => []
  | e :: rest, original, replaced =>
      if replaced = false ∧ matchesOriginal e original = true then
        dropFirstMatch rest original true
      else
        e :: dropFirstMatch rest original replaced

/-- One step of Python's lexicographic tuple comparison: decide on this
component if it differs, otherwise fall through to the remaining ones. -/
def lexStep {α : Type} [LinearOrder α] (x y : α) (rest : Bool) : Bool :=
  if x ≠ y then decide (x < y) else rest

/-- The sort key of `store.upsert_event` / `store.save_events`:
`(e.jtbd.x, e.bucket, e.jtbd.y, e.jtbd.z, e.nsm.p, e.nsm.q, e.nsm.r)`,
compared lexicographically as Python compares key tuples. -/
def eventKeyLe (a b : Event) : Bool :=
  lexStep a.jtbd.x b.jtbd.x (lexStep a.bucket b.bucket
    (lexStep a.jtbd.y b.jtbd.y (lexStep a.jtbd.z b.jtbd.z
      (lexStep a.nsm.p b.nsm.p (lexStep a.nsm.q b.nsm.q
        (decide (a.nsm.r ≤ b.nsm.r)))))))

/-- `store.upsert_event(path, events, new_event, replace_dt)` minus the
file write: drop the first seven-field match of `original` when editing,
append `new_event`, and return the list sorted by the key tuple. -/
def upsertEvent (events : List Event) (newEvent : Event)
    (replaceDt : Bool × Option Event) : List Event :=
  let updated :=
    match replaceDt with
    | (true, some original) => dropFirstMatch events original false
    | _ => events
  (updated ++ [newEvent]).mergeSort eventKeyLe

/-! ## Record identity (src/orchestrator.py vs src/view_agenda.py) -/

/-- A single identity-tuple component; identities in the two modules have
different arities, so an identity is modelled as a `List FieldVal`. -/
inductive FieldVal where
  | str (v : String)
  | time (v : Int)
  | metric (v : Rat)
deriving DecidableEq, Repr

/-- `Orchestrator._event_identity` (orchestrator.py lines 1100-1107):
only `(bucket, x, y, z)` — the metric fields are absent. -/
def orchestratorIdentity (e : Event) : List FieldVal :=
  [FieldVal.str e.bucket, FieldVal.time e.jtbd.x,
   FieldVal.str e.jtbd.y, FieldVal.str e.jtbd.z]

/-- `view_agenda._event_identity` = `view_month._event_identity`
(view_agenda.py lines 60-71): the full seven-field tuple
`(bucket, x, y, z, p, q, r)`. -/
def viewIdentity (e : Event) : List FieldVal :=
  [FieldVal.str e.bucket, FieldVal.time e.jtbd.x,
   FieldVal.str e.jtbd.y, FieldVal.str e.jtbd.z,
   FieldVal.metric e.nsm.p, FieldVal.metric e.nsm.q,
   FieldVal.metric e.nsm.r]

/-- A sample event used in concrete evaluations. -/
def sampleEvent : Event :=
  { bucket := "thing"
    jtbd := { x := 100, y := "Outcome A", z := "Impact A" }
    nsm := { p := 6, q := 7, r := 5 } }

/-- `sampleEvent` with a different `p` metric. -/
def sampleEventP9 : Event :=
  { sampleEvent with nsm := { p := 9, q := 7, r := 5 } }

/-! ## Viewport scroller
(`AgendaView.render`, view_agenda.py lines 289-340, and
`MonthView._draw_events_pane`, view_month.py lines 412-438.) -/

/-- The `compute_visible` inner loop of `AgendaView.render`
(view_agenda.py lines 295-312): accumulate row indices from `idx` while the
cumulative `max(1, row_heights[idx])` fits `dataHeight`; an oversized first
row is shown alone. `isFirst` records whether `visible` is still empty. -/
def cvAgendaGo (rowHeights : List Nat) (dataHeight idx used : Nat)
    (isFirst : Bool) : List Nat :=
  if h : idx < rowHeights.length then
    let height := max 1 (rowHeights.get ⟨idx, h⟩)
    if used + height > dataHeight then
      (if isFirst then [idx] else [])
    else
      idx :: (if used + height ≥ dataHeight then []
              else cvAgendaGo rowHeights dataHeight (idx + 1) (used + height) false)
  else []
termination_by rowHeights.length - idx
decreasing_by omega

/-- `compute_visible(start_idx)` of the agenda view (the `start_idx < 0`
clamp is vacuous for natural numbers). -/
def computeVisibleAgenda (rowHeights : List Nat) (dataHeight startIdx : Nat) :
    List Nat :=
  cvAgendaGo rowHeights dataHeight startIdx 0 true

/-- The `compute_visible` inner loop of `MonthView._draw_events_pane`
(view_month.py lines 416-432): identical to the agenda one except that it
accumulates the raw `row_heights[idx]` without the `max(1, ·)` guard. -/
def cvMonthGo (rowHeights : List Nat) (dataHeight idx used : Nat)
    (isFirst : Bool) : List Nat :=
  if h : idx < rowHeights.length then
    let height := rowHeights.get ⟨idx, h⟩
    if used + height > dataHeight then
      (if isFirst then [idx] else [])
    else
      idx :: (if used + height ≥ dataHeight then []
              else cvMonthGo rowHeights dataHeight (idx + 1) (used + height) false)
  else []
termination_by rowHeights.length - idx
decreasing_by omega

/-- `compute_visible(start)` of the month events pane (`start = max(0,
start)` is vacuous for natural numbers). -/
def computeVisibleMonth (rowHeights : List Nat) (dataHeight startIdx : Nat) :
    List Nat :=
  cvMonthGo rowHeights dataHeight startIdx 0 true

/-- The forward-advance loop of the agenda view (view_agenda.py lines
318-321): increment the scroll until the selection is visible or the last
row is reached. -/
def forwardAgenda (rowHeights : List Nat) (dataHeight sel scroll : Nat) : Nat :=
  if sel ∉ computeVisibleAgenda rowHeights dataHeight scroll ∧
      scroll < rowHeights.length - 1 then
    forwardAgenda rowHeights dataHeight sel (scroll + 1)
  else scroll
termination_by rowHeights.length - scroll
decreasing_by omega

/-- `_height_sum` (view_agenda.py lines 326-327): raw row heights of the
given indices, summed. -/
def heightSum (rowHeights : List Nat) (indices : List Nat) : Nat :=
  (indices.map (fun i => rowHeights.getD i 0)).sum

/-- The backward-pull loop of the agenda view (view_agenda.py lines
329-336): pull the window back one row at a time while the selection stays
visible and the total height still fits. -/
def pullAgenda (rowHeights : List Nat) (dataHeight sel scroll : Nat) : Nat :=
  if h0 : scroll = 0 then scroll
  else
    let prevVisible := computeVisibleAgenda rowHeights dataHeight (scroll - 1)
    if sel ∉ prevVisible then scroll
    else if heightSum rowHeights prevVisible > dataHeight then scroll
    else pullAgenda rowHeights dataHeight sel (scroll - 1)
termination_by scroll
decreasing_by omega

/-- The scroll negotiation of `AgendaView.render` on a nonempty row list
(view_agenda.py lines 289-340): clamp the selection and the previous
scroll, never scroll past the selection, advance forward until the
selection is visible, fall back to the selection, pull the window
backward, and guard against an empty visible set.  Returns the final
scroll offset and the visible index list. -/
def agendaScroll (rowHeights : List Nat)
    (selectedIdx previousScroll dataHeight : Nat) : Nat × List Nat :=
  let totalRows := rowHeights.length
  let sel := min selectedIdx (totalRows - 1)
  let scroll0 := min previousScroll (totalRows - 1)
  let scroll1 := if scroll0 > sel then sel else scroll0
  let scroll2 := forwardAgenda rowHeights dataHeight sel scroll1
  let scroll3 :=
    if sel ∈ computeVisibleAgenda rowHeights dataHeight scroll2 then scroll2
    else sel
  let scroll4 := pullAgenda rowHeights dataHeight sel scroll3
  let visible := computeVisibleAgenda rowHeights dataHeight scroll4
  if visible = [] then (sel, [sel]) else (scroll4, visible)

/-- The forward-advance loop of the month events pane (view_month.py lines
436-438). -/
def forwardMonth (rowHeights : List Nat) (dataHeight sel startIdx : Nat) : Nat :=
  if sel ∉ computeVisibleMonth rowHeights dataHeight startIdx ∧
      startIdx < rowHeights.length - 1 then
    forwardMonth rowHeights dataHeight sel (startIdx + 1)
  else startIdx
termination_by rowHeights.length - startIdx
decreasing_by omega

/-- The scroll computation of `MonthView._draw_events_pane` on a nonempty
row list (view_month.py lines 412-438): clamp the selection, then advance
from scroll 0 until the selection is visible.  There is no previous-scroll
input, no fallback and no backward pull. -/
def monthScroll (rowHeights : List Nat) (selectedIdx dataHeight : Nat) :
    Nat × List Nat :=
  let sel := min selectedIdx (rowHeights.length - 1)
  let startIdx := forwardMonth rowHeights dataHeight sel 0
  (startIdx, computeVisibleMonth rowHeights dataHeight startIdx)

/-- Cumulative raw height of rows `s..t` (`t ≥ s`); the quantity the greedy
`compute_visible` loop accumulates between a scroll position and the
selection. -/
def segSum (rowHeights : List Nat) (s t : Nat) : Nat :=
  if s < t then rowHeights.getD s 0 + segSum rowHeights (s + 1) t
  else rowHeights.getD t 0
termination_by t - s
decreasing_by omega

/-! ## Text splitting (shared by the wrapper and the layout engine)

Python `str` values are modelled as `List Char`; `str.splitlines()` is
modelled for `'\n'` as the hard line-break character (the embedding does
not model the exotic Unicode line separators `str.splitlines` also
accepts). -/

/-- `text.splitlines()`: split on `'\n'`; the empty string yields `[]`,
and a trailing newline does not produce a final empty line. -/
def splitlinesNL (s : List Char) : List (List Char) :=
  if s = [] then []
  else
    let head := s.takeWhile (· ≠ '\n')
    let rest := s.dropWhile (· ≠ '\n')
    if rest = [] then [head]
    else head :: splitlinesNL rest.tail
termination_by s.length
decreasing_by
  have h1 : (s.dropWhile (fun c => decide (c ≠ '\n'))).length ≤ s.length :=
    (List.dropWhile_sublist _).length_le
  rename_i hne hrne
  rcases hr : s.dropWhile (fun c => decide (c ≠ '\n')) with - | ⟨c0, r0⟩
  · exact absurd hr hrne
  · rw [hr] at h1
    simp only [hr, List.tail_cons]
    simp only [List.length_cons] at h1
    omega

/-- `view_agenda._max_line_length` (lines 27-33): 0 for the empty string,
else the longest physical line of the text. -/
def maxLineLength (text : List Char) : Nat :=
  if text = [] then 0
  else
    let lines := splitlinesNL text
    if lines = [] then text.length
    else (lines.map List.length).foldl max 0

/-! ## Column layout engine (`AgendaView.render`, view_agenda.py lines
124-189): four fixed columns `(x, y, z, nsm)` with gap width 1,
minimum widths `(6, 6, 6, 6)`, maximum widths `(19, 60, 40, 12)` and
header lengths `(1, 1, 1, 3)`. -/

/-- The four column widths the negotiation manipulates. -/
structure Widths4 where
  w0 : Nat
  w1 : Nat
  w2 : Nat
  w3 : Nat
deriving DecidableEq, Repr

/-- `widths[i]`. -/
def getW (w : Widths4) : Fin 4 → Nat
  | 0 => w.w0
  | 1 => w.w1
  | 2 => w.w2
  | 3 => w.w3

/-- `widths[i] = v`. -/
def setW (w : Widths4) (i : Fin 4) (v : Nat) : Widths4 :=
  match i with
  | 0 => { w with w0 := v }
  | 1 => { w with w1 := v }
  | 2 => { w with w2 := v }
  | 3 => { w with w3 := v }

/-- `widths[i] -= 1`. -/
def decW (w : Widths4) (i : Fin 4) : Widths4 := setW w i (getW w i - 1)

/-- `sum(widths)`. -/
def sumW (w : Widths4) : Nat := w.w0 + w.w1 + w.w2 + w.w3

/-- `sum(widths) + (COLUMN_COUNT - 1) * _GAP_WIDTH` with `_GAP_WIDTH = 1`. -/
def totalW (w : Widths4) : Nat := sumW w + 3

/-- `_MIN_WIDTHS = (6, 6, 6, 6)`. -/
def minWidths : Fin 4 → Nat
  | 0 => 6
  | 1 => 6
  | 2 => 6
  | 3 => 6

/-- `_MAX_WIDTHS = (19, 60, 40, 12)`. -/
def maxWidths : Fin 4 → Nat
  | 0 => 19
  | 1 => 60
  | 2 => 40
  | 3 => 12

/-- Lengths of the headers `("x", "y", "z", "nsm")`. -/
def headerLen : Fin 4 → Nat
  | 0 => 1
  | 1 => 1
  | 2 => 1
  | 3 => 3

/-- Lines 136-142: the data length of a column — the per-physical-line
maximum for the wrap-eligible columns 1 and 2, the plain string length
for columns 0 and 3 (`max(..., default=0)`). -/
def columnLength (i : Fin 4) (samples : List (List Char)) : Nat :=
  if i = 1 ∨ i = 2 then (samples.map maxLineLength).foldl max 0
  else (samples.map List.length).foldl max 0

/-- Lines 144-151: initial width `max(min_w, min(max_w, max(header_len,
data_len)))`. -/
def initWidth (i : Fin 4) (dataLen : Nat) : Nat :=
  max (minWidths i) (min (maxWidths i) (max (headerLen i) dataLen))

/-- The initial width vector from the four data lengths. -/
def initWidths (d0 d1 d2 d3 : Nat) : Widths4 :=
  ⟨initWidth 0 d0, initWidth 1 d1, initWidth 2 d2, initWidth 3 d3⟩

/-- `max(range(COLUMN_COUNT), key=lambda idx: widths[idx])`: the first
index attaining the maximum width (leftmost wins ties). -/
def largestIdx (w : Widths4) : Fin 4 :=
  if w.w0 ≥ w.w1 ∧ w.w0 ≥ w.w2 ∧ w.w0 ≥ w.w3 then 0
  else if w.w1 ≥ w.w2 ∧ w.w1 ≥ w.w3 then 1
  else if w.w2 ≥ w.w3 then 2
  else 3

/-- Every width is ≥ 1. -/
def wAllGe1 (w : Widths4) : Prop :=
  1 ≤ w.w0 ∧ 1 ≤ w.w1 ∧ 1 ≤ w.w2 ∧ 1 ≤ w.w3

instance : DecidablePred wAllGe1 := fun w => by
  unfold wAllGe1
  infer_instance

/-- Phase one (lines 155-163): while the total exceeds the budget and some
column is above its stated minimum, shrink the currently widest column by
1; stop if the widest is already at its minimum. -/
def phaseA (w : Widths4) (usable : Nat) : Widths4 :=
  if usable < totalW w ∧
      (minWidths 0 < w.w0 ∨ minWidths 1 < w.w1 ∨
       minWidths 2 < w.w2 ∨ minWidths 3 < w.w3) then
    if getW w (largestIdx w) ≤ minWidths (largestIdx w) then w
    else phaseA (decW w (largestIdx w)) usable
  else w
termination_by sumW w
decreasing_by
  rename_i hcond hgt
  have key : ∀ i : Fin 4, ¬ getW w i ≤ minWidths i → sumW (decW w i) < sumW w := by
    intro i hi
    fin_cases i <;> simp [getW, minWidths, decW, setW, sumW] at * <;> omega
  exact key _ hgt

/-- The round-robin distance from index `i` to the next index (cyclically)
whose width exceeds 1; used only as the termination measure of phase
two. -/
def distGt1 (w : Widths4) (i : Fin 4) : Nat :=
  match i with
  | 0 => if 1 < w.w0 then 0 else if 1 < w.w1 then 1
         else if 1 < w.w2 then 2 else if 1 < w.w3 then 3 else 0
  | 1 => if 1 < w.w1 then 0 else if 1 < w.w2 then 1
         else if 1 < w.w3 then 2 else if 1 < w.w0 then 3 else 0
  | 2 => if 1 < w.w2 then 0 else if 1 < w.w3 then 1
         else if 1 < w.w0 then 2 else if 1 < w.w1 then 3 else 0
  | 3 => if 1 < w.w3 then 0 else if 1 < w.w0 then 1
         else if 1 < w.w1 then 2 else if 1 < w.w2 then 3 else 0

/-- Phase two (lines 165-171): while the total still exceeds the budget
and some width is above 1, walk the columns round-robin, shrinking each
width above 1 by 1. -/
def phaseB (w : Widths4) (usable : Nat) (i : Fin 4) : Widths4 :=
  if usable < totalW w ∧ (1 < w.w0 ∨ 1 < w.w1 ∨ 1 < w.w2 ∨ 1 < w.w3) then
    if 1 < getW w i then phaseB (decW w i) usable (i + 1)
    else phaseB w usable (i + 1)
  else w
termination_by 4 * sumW w + distGt1 w i
decreasing_by
  · rename_i hcond hgt
    have h1 : sumW (decW w i) + 1 = sumW w := by
      rcases i with ⟨iv, hvi⟩
      interval_cases iv
      · have hg : 1 < w.w0 := hgt
        show sumW (decW w 0) + 1 = sumW w
        simp only [sumW, decW, setW, getW]
        omega
      · have hg : 1 < w.w1 := hgt
        show sumW (decW w 1) + 1 = sumW w
        simp only [sumW, decW, setW, getW]
        omega
      · have hg : 1 < w.w2 := hgt
        show sumW (decW w 2) + 1 = sumW w
        simp only [sumW, decW, setW, getW]
        omega
      · have hg : 1 < w.w3 := hgt
        show sumW (decW w 3) + 1 = sumW w
        simp only [sumW, decW, setW, getW]
        omega
    have h2 : ∀ w2 : Widths4, ∀ j : Fin 4, distGt1 w2 j ≤ 3 := by
      intro w2 j
      fin_cases j <;> simp only [distGt1] <;> split_ifs <;> omega
    have := h2 (decW w i) (i + 1)
    omega
  · rename_i hcond hle
    obtain ⟨-, hany⟩ := hcond
    have key : distGt1 w (i + 1) + 1 = distGt1 w i := by
      rcases i with ⟨iv, hvi⟩
      interval_cases iv
      · have h0 : ¬ 1 < w.w0 := hle
        show distGt1 w 1 + 1 = distGt1 w 0
        simp only [distGt1]
        split_ifs <;> omega
      · have h0 : ¬ 1 < w.w1 := hle
        show distGt1 w 2 + 1 = distGt1 w 1
        simp only [distGt1]
        split_ifs <;> omega
      · have h0 : ¬ 1 < w.w2 := hle
        show distGt1 w 3 + 1 = distGt1 w 2
        simp only [distGt1]
        split_ifs <;> omega
      · have h0 : ¬ 1 < w.w3 := hle
        show distGt1 w 0 + 1 = distGt1 w 3
        simp only [distGt1]
        split_ifs <;> omega
    omega

/-- One iteration of the phase-three `for idx in range(COLUMN_COUNT)` loop
(lines 173-184), carrying `(widths, overflow)`: stop when no overflow
remains, skip columns already at width 1, otherwise clip by
`min(reducible, overflow)`. -/
def phaseCStep (wo : Widths4 × Nat) (i : Fin 4) : Widths4 × Nat :=
  if wo.2 = 0 then wo
  else
    let reducible := getW wo.1 i - 1
    if reducible = 0 then wo
    else
      let delta := min reducible wo.2
      (setW wo.1 i (getW wo.1 i - delta), wo.2 - delta)

/-- Phase three (lines 173-184): when the total still exceeds a positive
budget, clip the remaining overflow from the columns left to right, never
below width 1. -/
def phaseC (w : Widths4) (usable : Nat) : Widths4 :=
  if usable < totalW w ∧ 0 < usable then
    (phaseCStep (phaseCStep (phaseCStep (phaseCStep (w, totalW w - usable) 0) 1) 2) 3).1
  else w

/-- Line 186: `widths = [max(1, width) for width in widths]`. -/
def clampMax1 (w : Widths4) : Widths4 :=
  ⟨max 1 w.w0, max 1 w.w1, max 1 w.w2, max 1 w.w3⟩

/-- The full width negotiation of `AgendaView.render` (lines 144-187) as a
function of the four column data lengths and the usable width. -/
def computeWidths (d0 d1 d2 d3 usable : Nat) : Widths4 :=
  clampMax1 (phaseC (phaseB (phaseA (initWidths d0 d1 d2 d3) usable) usable 0) usable)

/-- The width negotiation as a function of the four sample-value columns
(timestamps, y values, z values, nsm values). -/
def negotiateWidths (s0 s1 s2 s3 : List (List Char)) (usable : Nat) : Widths4 :=
  computeWidths (columnLength 0 s0) (columnLength 1 s1)
    (columnLength 2 s2) (columnLength 3 s3) usable

/-! ## Text wrapping (`view_agenda._wrap_text`, lines 36-57, and the
`textwrap.wrap` call it makes with `break_long_words=True`,
`drop_whitespace=False`, `replace_whitespace=False`).

The embedding models the alphabet the agenda actually renders: `' '` is
the word separator and `'\n'` the hard line break (tab expansion and
hyphen-aware breaking of CPython's `textwrap` are outside the model). -/

/-- `textwrap`'s chunk splitting for the modelled alphabet: maximal runs
of spaces alternate with maximal runs of non-spaces; concatenating the
runs gives back the text. -/
def splitRuns (s : List Char) : List (List Char) :=
  match s with
  | [] => []
  | c :: rest =>
      ((c :: rest).takeWhile (fun x => (x == ' ') == (c == ' '))) ::
        splitRuns ((c :: rest).dropWhile (fun x => (x == ' ') == (c == ' ')))
termination_by s.length
decreasing_by
  have hdr : (c :: rest).dropWhile (fun x => (x == ' ') == (c == ' '))
      = rest.dropWhile (fun x => (x == ' ') == (c == ' ')) := by
    rw [List.dropWhile_cons]
    simp
  have hle : (rest.dropWhile (fun x => (x == ' ') == (c == ' '))).length
      ≤ rest.length := (List.dropWhile_sublist _).length_le
  simp only [hdr, List.length_cons]
  omega

/-- Total character count of a chunk list. -/
def totalLen (chunks : List (List Char)) : Nat :=
  (chunks.map List.length).sum

/-- The greedy packing loop inside `textwrap._wrap_chunks`: pop chunks
onto the current line while `cur_len + len(chunk) <= width`; returns the
packed chunks and the remainder. -/
def packChunks (width curLen : Nat) : List (List Char) →
    (List (List Char)) × List (List Char)
  | [] => ([], [])
  | c :: rest =>
      if curLen + c.length ≤ width then
        ((c :: (packChunks width (curLen + c.length) rest).1),
         (packChunks width (curLen + c.length) rest).2)
      else ([], c :: rest)

/-- `textwrap._wrap_chunks` with `drop_whitespace=False` and
`break_long_words=True`: pack a line greedily; if the next chunk exceeds
the width, break it after `space_left = width - cur_len` characters
(`1` when `width < 1`) and keep the remainder; otherwise emit the line
and continue.  The `(cur = [])` fall-through in the non-oversized case is
unreachable (the packing loop only stops early at an oversized chunk). -/
def wrapChunks (width : Nat) (chunks : List (List Char)) : List (List Char) :=
  if chunks = [] then []
  else
    let cur := (packChunks width 0 chunks).1
    let rest := (packChunks width 0 chunks).2
    if rest = [] then [cur.flatten]
    else
      let c := rest.headD []
      let rest2 := rest.tail
      if width < c.length then
        (cur.flatten ++
          c.take (if width < 1 then 1 else width - totalLen cur)) ::
          wrapChunks width
            (c.drop (if width < 1 then 1 else width - totalLen cur) :: rest2)
      else
        if cur = [] then []
        else cur.flatten :: wrapChunks width rest
termination_by totalLen chunks + chunks.length
decreasing_by
  · have hsplit : ∀ (l : Nat) (chs : List (List Char)),
        (packChunks width l chs).1 ++ (packChunks width l chs).2 = chs := by
      intro l chs
      induction chs generalizing l with
      | nil => rfl
      | cons c0 r0 ih =>
          simp only [packChunks]
          split_ifs
          · simp [ih]
          · simp
    rename_i hne hrne hov
    rcases hnr : (packChunks width 0 chunks).2 with - | ⟨c1, r2⟩
    · exact absurd hnr hrne
    · have heq : (packChunks width 0 chunks).1 ++ (c1 :: r2) = chunks := by
        have hx := hsplit 0 chunks
        rw [hnr] at hx
        exact hx
      have htl := congrArg totalLen heq
      have hlen := congrArg List.length heq
      unfold_let c rest at hov
      rw [hnr] at hov
      rcases hp1 : (packChunks width 0 chunks).1 with - | ⟨c0, cur0⟩ <;>
        rw [hp1] at htl hlen <;>
        simp only [totalLen, List.map_append, List.sum_append, List.map_cons,
          List.sum_cons, List.map_nil, List.sum_nil, List.length_append,
          List.length_cons, List.length_nil, List.length_drop,
          List.nil_append, List.headD_cons, List.tail_cons] at htl hlen hov ⊢ <;>
        split_ifs with hw1 <;> omega
  · have hsplit : ∀ (l : Nat) (chs : List (List Char)),
        (packChunks width l chs).1 ++ (packChunks width l chs).2 = chs := by
      intro l chs
      induction chs generalizing l with
      | nil => rfl
      | cons c0 r0 ih =>
          simp only [packChunks]
          split_ifs
          · simp [ih]
          · simp
    rename_i hne hrne hnwc
    have heq : (packChunks width 0 chunks).1 ++ (packChunks width 0 chunks).2
        = chunks := hsplit 0 chunks
    have hnwc2 : ¬ width < ((packChunks width 0 chunks).2.headD []).length := hnwc
    rcases hp1 : (packChunks width 0 chunks).1 with - | ⟨c0, cur0⟩
    · rw [hp1] at heq
      simp only [List.nil_append] at heq
      rcases hch : chunks with - | ⟨c2, r⟩
      · exact absurd hch hne
      · rw [hch] at hp1
        simp only [packChunks] at hp1
        split_ifs at hp1 with hfit
        rw [heq] at hnwc2
        rw [hch] at hnwc2
        simp only [List.headD_cons] at hnwc2
        omega
    · rw [hp1] at heq
      have htl := congrArg totalLen heq
      have hlen := congrArg List.length heq
      simp only [totalLen, List.map_append, List.sum_append, List.map_cons,
        List.sum_cons, List.length_append, List.length_cons] at htl hlen ⊢
      omega

/-- `textwrap.wrap(part, width, break_long_words=True,
drop_whitespace=False, replace_whitespace=False)` for the modelled
alphabet. -/
def textwrapWrap (s : List Char) (width : Nat) : List (List Char) :=
  wrapChunks width (splitRuns s)

/-- `parts = text.splitlines() or [text]` (view_agenda.py line 40). -/
def wrapParts (value : List Char) : List (List Char) :=
  match splitlinesNL value with
  | [] => [value]
  | ps => ps

/-- The per-part body of the `_wrap_text` loop (lines 42-56): an empty
part yields one empty line; otherwise the part is wrapped, an empty wrap
result yielding one empty line. -/
def unitLines (part : List Char) (width : Nat) : List (List Char) :=
  if part = [] then [[]]
  else if textwrapWrap part width = [] then [[]]
  else textwrapWrap part width

/-- `view_agenda._wrap_text(value, width)` (lines 36-57) over `List Char`
(a `width ≤ 0` is modelled by `width = 0` since widths are naturals). -/
def wrapText (value : List Char) (width : Nat) : List (List Char) :=
  if width = 0 then [[]]
  else
    let lines := (wrapParts value).flatMap (fun p => unitLines p width)
    if lines = [] then [[]] else lines

/-- The canonical reconstruction of the original text from the wrapped
lines: concatenate each hard-break unit's lines and rejoin the units with
the hard line break. -/
def reconstructText (value : List Char) (width : Nat) : List Char :=
  List.intercalate ['\n']
    ((wrapParts value).map (fun p => (unitLines p width).flatten))

/-! ## Lemmas about the sort key -/

theorem lexStep_eq_true {α : Type} [LinearOrder α] {x y : α} {r : Bool} :
    lexStep x y r = true ↔ (x < y ∨ (x = y ∧ r = true)) := by
  simp only [lexStep, ne_eq, ite_not]
  split_ifs with h
  · subst h
    simp
  · constructor
    · intro hlt
      exact Or.inl (by exact_mod_cast of_decide_eq_true hlt)
    · rintro (hlt | ⟨rfl, -⟩)
      · exact decide_eq_true hlt
      · exact absurd rfl h

theorem lexStep_trans {α : Type} [LinearOrder α] {x y z : α} {r1 r2 r3 : Bool}
    (hr : r1 = true → r2 = true → r3 = true) :
    lexStep x y r1 = true → lexStep y z r2 = true → lexStep x z r3 = true := by
  intro h1 h2
  rw [lexStep_eq_true] at *
  rcases h1 with h1 | ⟨h1, hr1⟩ <;> rcases h2 with h2 | ⟨h2, hr2⟩
  · exact Or.inl (lt_trans h1 h2)
  · exact Or.inl (h2 ▸ h1)
  · exact Or.inl (h1 ▸ h2)
  · exact Or.inr ⟨h1.trans h2, hr hr1 hr2⟩

theorem lexStep_total {α : Type} [LinearOrder α] (x y : α) {r1 r2 : Bool}
    (h : (r1 || r2) = true) : (lexStep x y r1 || lexStep y x r2) = true := by
  rcases eq_or_ne x y with rfl | hne
  · simpa [lexStep_eq_true] using (by simpa using h : r1 = true ∨ r2 = true)
  · rcases lt_or_gt_of_ne hne with hlt | hgt
    · simp [lexStep_eq_true, hlt]
    · simp [lexStep_eq_true, hgt]

theorem eventKeyLe_trans :
    ∀ a b c : Event, eventKeyLe a b = true → eventKeyLe b c = true →
      eventKeyLe a c = true := by
  intro a b c
  unfold eventKeyLe
  refine lexStep_trans (lexStep_trans (lexStep_trans (lexStep_trans
    (lexStep_trans (lexStep_trans ?_)))))
  intro h1 h2
  simp only [decide_eq_true_eq] at *
  exact le_trans h1 h2

theorem eventKeyLe_total :
    ∀ a b : Event, (eventKeyLe a b || eventKeyLe b a) = true := by
  intro a b
  unfold eventKeyLe
  refine lexStep_total _ _ (lexStep_total _ _ (lexStep_total _ _
    (lexStep_total _ _ (lexStep_total _ _ (lexStep_total _ _ ?_)))))
  simp only [Bool.or_eq_true, decide_eq_true_eq]
  exact le_total a.nsm.r b.nsm.r

theorem dropFirstMatch_true_id (l : List Event) (o : Event) :
    dropFirstMatch l o true = l := by
  induction l with
  | nil => rfl
  | cons e rest ih => simp [dropFirstMatch, ih]

theorem dropFirstMatch_false_eq_eraseP (l : List Event) (o : Event) :
    dropFirstMatch l o false = l.eraseP (fun e => matchesOriginal e o) := by
  induction l with
  | nil => rfl
  | cons e rest ih =>
      by_cases h : matchesOriginal e o = true
      · simp [dropFirstMatch, List.eraseP_cons, h, dropFirstMatch_true_id]
      · simp [dropFirstMatch, List.eraseP_cons, h, ih]

/-! ## Claim C10 -/

/-- C10: `upsert_event` removes exactly the first event equal to the
original on all seven fields (none when no original is given), appends the
new event, and returns a list sorted by the key
`(x, bucket, y, z, p, q, r)`; the result always contains the new event and
is always sorted by that key. -/
theorem upsert_event_spec (events : List Event) (newEvent original : Event)
    (oOpt : Option Event) :
    (∀ rd : Bool × Option Event,
       newEvent ∈ upsertEvent events newEvent rd ∧
       (upsertEvent events newEvent rd).Pairwise
         (fun a b => eventKeyLe a b = true))
  ∧ (upsertEvent events newEvent (true, some original)).Perm
      ((events.eraseP (fun e => matchesOriginal e original)) ++ [newEvent])
  ∧ (upsertEvent events newEvent (false, oOpt)).Perm (events ++ [newEvent])
  ∧ (upsertEvent events newEvent (true, none)).Perm (events ++ [newEvent]) := by
  refine ⟨?_, ?_, ?_, ?_⟩
  · intro rd
    constructor
    · have hperm := List.mergeSort_perm
        ((match rd with
          | (true, some original) => dropFirstMatch events original false
          | _ => events) ++ [newEvent]) eventKeyLe
      exact hperm.mem_iff.mpr (by simp)
    · exact List.sorted_mergeSort eventKeyLe_trans eventKeyLe_total _
  · have hperm := List.mergeSort_perm
      (dropFirstMatch events original false ++ [newEvent]) eventKeyLe
    simpa [upsertEvent, dropFirstMatch_false_eq_eraseP] using hperm
  · exact List.mergeSort_perm (events ++ [newEvent]) eventKeyLe
  · exact List.mergeSort_perm (events ++ [newEvent]) eventKeyLe

/-! ## Claim C6 -/

/-- C6: the identity used by the orchestrator to toggle/prune row-expansion
overrides and to re-locate records is NOT the full seven-field tuple: it
omits the three metric fields, while the renderer checks the seven-field
tuple, so the two identities never agree (a four-element tuple never equals
a seven-element tuple) and the orchestrator conflates events the renderer
distinguishes. -/
theorem orchestrator_identity_four_fields_bug :
    orchestratorIdentity sampleEvent = orchestratorIdentity sampleEventP9
  ∧ viewIdentity sampleEvent ≠ viewIdentity sampleEventP9
  ∧ ∀ e : Event, orchestratorIdentity e ≠ viewIdentity e := by
  refine ⟨rfl, by decide, ?_⟩
  intro e h
  have hlen := congrArg List.length h
  simp [orchestratorIdentity, viewIdentity] at hlen

/-! ## Lemmas about the viewport scroller -/

theorem cvAgendaGo_eq_month (hs : List Nat) (H : Nat) :
    ∀ idx used f, cvAgendaGo hs H idx used f
      = cvMonthGo (hs.map fun x => max 1 x) H idx used f := by
  have main : ∀ k idx used f, hs.length - idx = k →
      cvAgendaGo hs H idx used f
        = cvMonthGo (hs.map fun x => max 1 x) H idx used f := by
    intro k
    induction k with
    | zero =>
        intro idx used f hk
        rw [cvAgendaGo, cvMonthGo]
        simp only [List.length_map]
        rw [dif_neg (by omega), dif_neg (by omega)]
    | succ k ih =>
        intro idx used f hk
        have hidx : idx < hs.length := by omega
        rw [cvAgendaGo, cvMonthGo]
        simp only [List.length_map]
        rw [dif_pos hidx, dif_pos hidx]
        have hget : (hs.map fun x => max 1 x).get ⟨idx, by simpa using hidx⟩
            = max 1 (hs.get ⟨idx, hidx⟩) := by
          simp
        rw [hget]
        by_cases hov : used + max 1 (hs.get ⟨idx, hidx⟩) > H
        · simp only [if_pos hov]
        · simp only [if_neg hov]
          by_cases hfit : used + max 1 (hs.get ⟨idx, hidx⟩) ≥ H
          · simp only [if_pos hfit]
          · simp only [if_neg hfit]
            rw [ih (idx + 1) (used + max 1 (hs.get ⟨idx, hidx⟩)) false (by omega)]
  intro idx used f
  exact main (hs.length - idx) idx used f rfl

theorem map_max_one_eq_self {hs : List Nat} (hpos : ∀ x ∈ hs, 1 ≤ x) :
    (hs.map fun x => max 1 x) = hs := by
  induction hs with
  | nil => rfl
  | cons a rest ih =>
      have ha : 1 ≤ a := hpos a (by simp)
      simp only [List.map_cons, List.cons.injEq]
      exact ⟨by omega, ih fun x hx => hpos x (by simp [hx])⟩

theorem cvAgenda_eq_cvMonth_of_pos {hs : List Nat} (hpos : ∀ x ∈ hs, 1 ≤ x)
    (H s : Nat) :
    computeVisibleAgenda hs H s = computeVisibleMonth hs H s := by
  unfold computeVisibleAgenda computeVisibleMonth
  rw [cvAgendaGo_eq_month, map_max_one_eq_self hpos]

theorem self_mem_cvAgendaGo (hs : List Nat) (H : Nat) :
    ∀ idx used, idx < hs.length → idx ∈ cvAgendaGo hs H idx used true := by
  intro idx used hidx
  rw [cvAgendaGo, dif_pos hidx]
  by_cases hov : H < used + max 1 hs[idx]
  · simp [hov]
  · simp [hov]

theorem self_mem_cvMonthGo (hs : List Nat) (H : Nat) :
    ∀ idx used, idx < hs.length → idx ∈ cvMonthGo hs H idx used true := by
  intro idx used hidx
  rw [cvMonthGo, dif_pos hidx]
  by_cases hov : H < used + hs[idx]
  · simp [hov]
  · simp [hov]

theorem pullAgenda_preserves_mem (hs : List Nat) (H sel : Nat) :
    ∀ s, sel ∈ computeVisibleAgenda hs H s →
      sel ∈ computeVisibleAgenda hs H (pullAgenda hs H sel s) := by
  intro s
  induction s using Nat.strong_induction_on with
  | _ s ih =>
      intro hmem
      rw [pullAgenda]
      by_cases h0 : s = 0
      · simpa [h0] using hmem
      · rw [dif_neg h0]
        by_cases hpm : sel ∈ computeVisibleAgenda hs H (s - 1)
        · simp only [hpm, not_true_eq_false, if_false]
          by_cases hhs : heightSum hs (computeVisibleAgenda hs H (s - 1)) > H
          · simpa [hhs] using hmem
          · simp only [hhs, if_false]
            exact ih (s - 1) (by omega) hpm
        · simpa [hpm] using hmem

/-! ## Claim C3 -/

/-- C3: for every row-heights array, selected index within bounds,
previous scroll and viewport height ≥ 1, the agenda viewport-scroll
computation returns a visible index set that contains the selected index
and is nonempty (an oversized first row is shown alone rather than
returning an empty set). -/
theorem scroller_selected_visible (hs : List Nat) (sel prev H : Nat)
    (hsel : sel < hs.length) (hH : 1 ≤ H) :
    sel ∈ (agendaScroll hs sel prev H).2 ∧ (agendaScroll hs sel prev H).2 ≠ [] := by
  have hle : sel ≤ hs.length - 1 := by omega
  have hself : sel ∈ computeVisibleAgenda hs H sel :=
    self_mem_cvAgendaGo hs H sel 0 hsel
  simp only [agendaScroll, Nat.min_eq_left hle]
  constructor
  · split <;> split <;> split
    all_goals
      first
        | exact pullAgenda_preserves_mem hs H sel _ (by assumption)
        | exact pullAgenda_preserves_mem hs H sel _ hself
        | simp
  · split <;> split <;> split
    all_goals simp_all

/-- Witness for C3 at the spec's scenario B: heights `[1,3,1]`, selection
1, previous scroll 0, viewport height 5. -/
theorem scroller_selected_visible_witness :
    1 ∈ (agendaScroll [1, 3, 1] 1 0 5).2 ∧ (agendaScroll [1, 3, 1] 1 0 5).2 ≠ [] :=
  scroller_selected_visible [1, 3, 1] 1 0 5 (by simp) (by omega)

theorem cvMonthGo_eq (hs : List Nat) (H idx used : Nat) (f : Bool)
    (h : idx < hs.length) :
    cvMonthGo hs H idx used f =
      if used + hs[idx] > H then (if f then [idx] else [])
      else idx :: (if used + hs[idx] ≥ H then []
                   else cvMonthGo hs H (idx + 1) (used + hs[idx]) false) := by
  rw [cvMonthGo, dif_pos h]
  rfl

theorem cvAgendaGo_eq (hs : List Nat) (H idx used : Nat) (f : Bool)
    (h : idx < hs.length) :
    cvAgendaGo hs H idx used f =
      if used + max 1 hs[idx] > H then (if f then [idx] else [])
      else idx :: (if used + max 1 hs[idx] ≥ H then []
                   else cvAgendaGo hs H (idx + 1) (used + max 1 hs[idx]) false) := by
  rw [cvAgendaGo, dif_pos h]
  rfl

theorem segSum_self (hs : List Nat) (t : Nat) : segSum hs t t = hs.getD t 0 := by
  rw [segSum, if_neg (lt_irrefl t)]

theorem segSum_step (hs : List Nat) {s t : Nat} (h : s < t) :
    segSum hs s t = hs.getD s 0 + segSum hs (s + 1) t := by
  rw [segSum, if_pos h]

theorem getD_ge_one {hs : List Nat} (hpos : ∀ x ∈ hs, 1 ≤ x) {i : Nat}
    (hi : i < hs.length) : 1 ≤ hs.getD i 0 := by
  rw [List.getD_eq_getElem hs 0 hi]
  exact hpos _ (List.getElem_mem hi)

theorem segSum_pos {hs : List Nat} (hpos : ∀ x ∈ hs, 1 ≤ x) {s t : Nat}
    (hst : s ≤ t) (hlt : t < hs.length) : 1 ≤ segSum hs s t := by
  rcases eq_or_lt_of_le hst with rfl | h
  · rw [segSum_self]
    exact getD_ge_one hpos hlt
  · rw [segSum_step hs h]
    have h1 : 1 ≤ hs.getD s 0 := getD_ge_one hpos (by omega)
    omega

theorem segSum_anti (hs : List Nat) {s s' t : Nat} (h1 : s ≤ s') (h2 : s' ≤ t) :
    segSum hs s' t ≤ segSum hs s t := by
  have main : ∀ k s s' t : Nat, s' - s = k → s ≤ s' → s' ≤ t →
      segSum hs s' t ≤ segSum hs s t := by
    intro k
    induction k with
    | zero =>
        intro s s' t hk hle hta
        have : s = s' := by omega
        subst this
        exact le_refl _
    | succ k ih =>
        intro s s' t hk hle hta
        have hst : s < t := by omega
        rw [segSum_step hs hst]
        have := ih (s + 1) s' t (by omega) (by omega) hta
        omega
  exact main (s' - s) s s' t rfl h1 h2

theorem mem_cvMonthGo_iff {hs : List Nat} (hpos : ∀ x ∈ hs, 1 ≤ x)
    (H sel : Nat) (hsel : sel < hs.length) :
    ∀ s used : Nat, ∀ f : Bool, s ≤ sel →
      (sel ∈ cvMonthGo hs H s used f ↔
        (used + segSum hs s sel ≤ H ∨ (s = sel ∧ f = true))) := by
  have main : ∀ k s used : Nat, ∀ f : Bool, sel - s = k → s ≤ sel →
      (sel ∈ cvMonthGo hs H s used f ↔
        (used + segSum hs s sel ≤ H ∨ (s = sel ∧ f = true))) := by
    intro k
    induction k with
    | zero =>
        intro s used f hk hle
        have hssel : s = sel := by omega
        subst hssel
        rw [cvMonthGo_eq hs H s used f hsel, segSum_self,
          List.getD_eq_getElem hs 0 hsel]
        by_cases hov : H < used + hs[s]
        · rw [if_pos hov]
          cases f with
          | true => simp
          | false =>
              simp only [Bool.false_eq_true, if_false, List.not_mem_nil,
                false_iff, not_or, not_and]
              constructor
              · omega
              · intro _
                simp
        · rw [if_neg hov]
          constructor
          · intro _
            exact Or.inl (by omega)
          · intro _
            exact List.mem_cons_self s _
    | succ k ih =>
        intro s used f hk hle
        have hslt : s < sel := by omega
        have hsl : s < hs.length := by omega
        rw [cvMonthGo_eq hs H s used f hsl]
        have hseg : segSum hs s sel = hs.getD s 0 + segSum hs (s + 1) sel :=
          segSum_step hs hslt
        have hgd : hs.getD s 0 = hs[s] := List.getD_eq_getElem hs 0 hsl
        by_cases hov : H < used + hs[s]
        · rw [if_pos hov]
          constructor
          · intro hmem
            cases f <;> simp at hmem <;> omega
          · rintro (hc | ⟨hc, -⟩)
            · exfalso
              have hge : 1 ≤ segSum hs (s + 1) sel := segSum_pos hpos (by omega) hsel
              omega
            · omega
        · rw [if_neg hov]
          by_cases hfit : H ≤ used + hs[s]
          · rw [if_pos hfit]
            constructor
            · intro hmem
              simp at hmem
              omega
            · rintro (hc | ⟨hc, -⟩)
              · exfalso
                have hge : 1 ≤ segSum hs (s + 1) sel := segSum_pos hpos (by omega) hsel
                omega
              · omega
          · rw [if_neg hfit]
            have hrec := ih (s + 1) (used + hs[s]) false (by omega) (by omega)
            simp only [List.mem_cons, hrec]
            constructor
            · rintro (hc | hc | ⟨hc, hf⟩)
              · omega
              · left
                omega
              · simp at hf
            · rintro (hc | ⟨hc, -⟩)
              · right
                left
                omega
              · omega
  intro s used f hle
  exact main (sel - s) s used f rfl hle

theorem mem_computeVisibleMonth_iff {hs : List Nat} (hpos : ∀ x ∈ hs, 1 ≤ x)
    (H sel : Nat) (hsel : sel < hs.length) {s : Nat} (hle : s ≤ sel) :
    sel ∈ computeVisibleMonth hs H s ↔ (segSum hs s sel ≤ H ∨ s = sel) := by
  rw [computeVisibleMonth, mem_cvMonthGo_iff hpos H sel hsel s 0 true hle]
  simp

theorem mem_cv_interval {hs : List Nat} (hpos : ∀ x ∈ hs, 1 ≤ x)
    (H sel : Nat) (hsel : sel < hs.length) {F j : Nat}
    (hF : sel ∈ computeVisibleMonth hs H F) (h1 : F ≤ j) (h2 : j ≤ sel) :
    sel ∈ computeVisibleMonth hs H j := by
  rw [mem_computeVisibleMonth_iff hpos H sel hsel (by omega)] at hF
  rw [mem_computeVisibleMonth_iff hpos H sel hsel h2]
  rcases hF with hc | hc
  · left
    have := segSum_anti hs h1 h2
    omega
  · right
    omega

theorem forwardMonth_spec (hs : List Nat) (H sel : Nat)
    (hsel : sel < hs.length) :
    ∀ s, s ≤ sel →
      (forwardMonth hs H sel s ≤ sel ∧ s ≤ forwardMonth hs H sel s ∧
       sel ∈ computeVisibleMonth hs H (forwardMonth hs H sel s) ∧
       ∀ j, s ≤ j → j < forwardMonth hs H sel s →
         sel ∉ computeVisibleMonth hs H j) := by
  have hPsel : sel ∈ computeVisibleMonth hs H sel :=
    self_mem_cvMonthGo hs H sel 0 hsel
  have main : ∀ k s, sel - s = k → s ≤ sel →
      (forwardMonth hs H sel s ≤ sel ∧ s ≤ forwardMonth hs H sel s ∧
       sel ∈ computeVisibleMonth hs H (forwardMonth hs H sel s) ∧
       ∀ j, s ≤ j → j < forwardMonth hs H sel s →
         sel ∉ computeVisibleMonth hs H j) := by
    intro k
    induction k with
    | zero =>
        intro s hk hle
        have hssel : s = sel := by omega
        subst hssel
        rw [forwardMonth, if_neg (by simp [hPsel])]
        exact ⟨le_refl s, le_refl s, hPsel, fun j h1 h2 _ => by omega⟩
    | succ k ih =>
        intro s hk hle
        have hslt : s < sel := by omega
        by_cases hP : sel ∈ computeVisibleMonth hs H s
        · rw [forwardMonth, if_neg (by simp [hP])]
          exact ⟨hle, le_refl s, hP, fun j h1 h2 _ => by omega⟩
        · have hguard : sel ∉ computeVisibleMonth hs H s ∧ s < hs.length - 1 :=
            ⟨hP, by omega⟩
          rw [forwardMonth, if_pos hguard]
          obtain ⟨c1, c2, c3, c4⟩ := ih (s + 1) (by omega) (by omega)
          refine ⟨c1, by omega, c3, ?_⟩
          intro j hj1 hj2
          rcases eq_or_lt_of_le hj1 with rfl | hgt
          · exact hP
          · exact c4 j (by omega) hj2
  intro s hle
  exact main (sel - s) s rfl hle

theorem heightSum_nil (hs : List Nat) : heightSum hs [] = 0 := rfl

theorem heightSum_cons (hs : List Nat) (a : Nat) (l : List Nat) :
    heightSum hs (a :: l) = hs.getD a 0 + heightSum hs l := by
  simp [heightSum]

theorem heightSum_cvMonthGo (hs : List Nat) (H : Nat) :
    ∀ idx used : Nat, ∀ f : Bool, used ≤ H →
      used + heightSum hs (cvMonthGo hs H idx used f) ≤ H ∨
      (f = true ∧ ∃ h : idx < hs.length,
        cvMonthGo hs H idx used f = [idx] ∧ H < used + hs[idx]) := by
  have main : ∀ k idx used : Nat, ∀ f : Bool, hs.length - idx = k → used ≤ H →
      used + heightSum hs (cvMonthGo hs H idx used f) ≤ H ∨
      (f = true ∧ ∃ h : idx < hs.length,
        cvMonthGo hs H idx used f = [idx] ∧ H < used + hs[idx]) := by
    intro k
    induction k with
    | zero =>
        intro idx used f hk hused
        rw [cvMonthGo, dif_neg (by omega)]
        left
        simpa [heightSum_nil] using hused
    | succ k ih =>
        intro idx used f hk hused
        have hidx : idx < hs.length := by omega
        rw [cvMonthGo_eq hs H idx used f hidx]
        by_cases hov : H < used + hs[idx]
        · rw [if_pos hov]
          cases f with
          | true => exact Or.inr ⟨rfl, hidx, by simp, hov⟩
          | false =>
              left
              simpa [heightSum_nil] using hused
        · rw [if_neg hov]
          by_cases hfit : H ≤ used + hs[idx]
          · rw [if_pos hfit]
            left
            rw [heightSum_cons, heightSum_nil, List.getD_eq_getElem hs 0 hidx]
            omega
          · rw [if_neg hfit]
            have := ih (idx + 1) (used + hs[idx]) false (by omega) (by omega)
            rcases this with hc | ⟨hfalse, -⟩
            · left
              rw [heightSum_cons, List.getD_eq_getElem hs 0 hidx]
              omega
            · exact absurd hfalse (by simp)
  intro idx used f hused
  exact main (hs.length - idx) idx used f rfl hused

theorem forwardAgenda_eq_forwardMonth_of_pos {hs : List Nat}
    (hpos : ∀ x ∈ hs, 1 ≤ x) (H sel : Nat) :
    ∀ s, forwardAgenda hs H sel s = forwardMonth hs H sel s := by
  have hbr : ∀ t, computeVisibleAgenda hs H t = computeVisibleMonth hs H t :=
    cvAgenda_eq_cvMonth_of_pos hpos H
  have main : ∀ k s, hs.length - s = k →
      forwardAgenda hs H sel s = forwardMonth hs H sel s := by
    intro k
    induction k with
    | zero =>
        intro s hk
        rw [forwardAgenda, forwardMonth, if_neg (by omega), if_neg (by omega)]
    | succ k ih =>
        intro s hk
        by_cases hg : sel ∉ computeVisibleMonth hs H s ∧ s < hs.length - 1
        · rw [forwardAgenda, forwardMonth, if_pos (by rw [hbr]; exact hg),
            if_pos hg]
          exact ih (s + 1) (by omega)
        · rw [forwardAgenda, forwardMonth, if_neg (by rw [hbr]; exact hg),
            if_neg hg]
  intro s
  exact main (hs.length - s) s rfl

theorem pullAgenda_reaches {hs : List Nat} (hpos : ∀ x ∈ hs, 1 ≤ x)
    (H sel F : Nat) (hsel : sel < hs.length)
    (hF : sel ∈ computeVisibleMonth hs H F)
    (hLeast : ∀ j, j < F → sel ∉ computeVisibleMonth hs H j)
    (hFsel : F ≤ sel) :
    ∀ s, F ≤ s → s ≤ sel → sel ∈ computeVisibleMonth hs H s →
      pullAgenda hs H sel s = F := by
  have hbr : ∀ t, computeVisibleAgenda hs H t = computeVisibleMonth hs H t :=
    cvAgenda_eq_cvMonth_of_pos hpos H
  intro s
  induction s using Nat.strong_induction_on with
  | _ s ih =>
      intro hFs hssel hP
      by_cases h0 : s = 0
      · rw [pullAgenda, dif_pos h0]
        omega
      · rw [pullAgenda, dif_neg h0]
        simp only [hbr]
        by_cases hpm : sel ∈ computeVisibleMonth hs H (s - 1)
        · have hFs1 : F ≤ s - 1 := by
            by_contra hc
            exact hLeast (s - 1) (by omega) hpm
          have hsum : ¬ heightSum hs (computeVisibleMonth hs H (s - 1)) > H := by
            rcases heightSum_cvMonthGo hs H (s - 1) 0 true (by omega) with hc | ⟨-, hlt, hone, -⟩
            · rw [computeVisibleMonth]
              omega
            · exfalso
              rw [computeVisibleMonth] at hpm
              rw [hone] at hpm
              have : sel = s - 1 := by simpa using hpm
              omega
          rw [if_neg (by simpa using hpm), if_neg hsum]
          exact ih (s - 1) (by omega) hFs1 (by omega) hpm
        · rw [if_pos (by simpa using hpm)]
          by_contra hc
          have hFlt : F < s := by omega
          have : sel ∈ computeVisibleMonth hs H (s - 1) :=
            mem_cv_interval hpos H sel hsel hF (by omega) (by omega)
          exact hpm this

/-! ## Claim C4 -/

/-- C4 counterexample: the two viewport-scroll computations are not the
same function on all inputs.  On the row-heights array `[0, 0]` (heights
the views themselves never produce, since both build rows with
`max(1, height)`) the agenda computation returns scroll 1 with visible
`[1]` while the month one returns scroll 0 with visible `[0, 1]`; on the
empty array the agenda fallback returns `[0]` while the month loop
returns `[]`. -/
theorem scroller_agenda_month_differ :
    agendaScroll [0, 0] 1 0 1 ≠ monthScroll [0, 0] 1 1 ∧
    agendaScroll ([] : List Nat) 0 0 1 ≠ monthScroll ([] : List Nat) 0 1 := by
  constructor <;>
    simp [agendaScroll, monthScroll, forwardAgenda, forwardMonth, pullAgenda,
      computeVisibleAgenda, computeVisibleMonth, cvAgendaGo, cvMonthGo,
      heightSum]

/-- C4 (amended): on every nonempty row-heights array whose entries are
all ≥ 1 — the only arrays either view ever builds, since both construct
rows with `max(1, height)` — the agenda scroll computation (with its
previous-scroll clamp and backward pull) and the month events-pane scroll
computation (which ignores the previous scroll and never pulls backward)
return the same scroll offset and the same visible index list, for every
selected index, previous scroll and viewport height. -/
theorem scroller_agenda_month_agree (hs : List Nat) (sel prev H : Nat)
    (hpos : ∀ x ∈ hs, 1 ≤ x) (hne : hs ≠ []) :
    agendaScroll hs sel prev H = monthScroll hs sel H := by
  have hlen : 0 < hs.length := List.length_pos.mpr hne
  have hbr : ∀ t, computeVisibleAgenda hs H t = computeVisibleMonth hs H t :=
    cvAgenda_eq_cvMonth_of_pos hpos H
  simp only [agendaScroll, monthScroll]
  set S := min sel (hs.length - 1) with hSdef
  have hsl : S < hs.length := by omega
  have hfwd := forwardAgenda_eq_forwardMonth_of_pos hpos H S
  obtain ⟨hFle, -, hFP, hFleast⟩ := forwardMonth_spec hs H S hsl 0 (by omega)
  have hFne : computeVisibleMonth hs H (forwardMonth hs H S 0) ≠ [] := by
    intro hc
    rw [hc] at hFP
    exact List.not_mem_nil _ hFP
  have key : ∀ s1, s1 ≤ S →
      pullAgenda hs H S
        (if S ∈ computeVisibleAgenda hs H (forwardAgenda hs H S s1) then
          forwardAgenda hs H S s1
         else S) = forwardMonth hs H S 0 := by
    intro s1 h1
    obtain ⟨c1, c2, c3, c4⟩ := forwardMonth_spec hs H S hsl s1 h1
    rw [hfwd s1, hbr]
    rw [if_pos c3]
    have hFle2 : forwardMonth hs H S 0 ≤ forwardMonth hs H S s1 := by
      by_contra hc
      exact (hFleast (forwardMonth hs H S s1) (Nat.zero_le _) (by omega)) c3
    exact pullAgenda_reaches hpos H S (forwardMonth hs H S 0) hsl hFP
      (fun j hj => hFleast j (Nat.zero_le j) hj) hFle _ hFle2 c1 c3
  split
  · next hcond =>
      rw [key S le_rfl]
      simp only [hbr]
      rw [if_neg hFne]
  · next hcond =>
      rw [key (min prev (hs.length - 1)) (by omega)]
      simp only [hbr]
      rw [if_neg hFne]

/-- Witness for C4 (amended) at heights `[1,3,1]`, selection 1, previous
scroll 0, viewport height 5. -/
theorem scroller_agenda_month_agree_witness :
    agendaScroll [1, 3, 1] 1 0 5 = monthScroll [1, 3, 1] 1 5 :=
  scroller_agenda_month_agree [1, 3, 1] 1 0 5 (by decide) (by decide)

/-! ## Lemmas about the column layout -/

theorem getW_ge1 {w : Widths4} (hw : wAllGe1 w) (i : Fin 4) : 1 ≤ getW w i := by
  rcases i with ⟨iv, hi⟩
  interval_cases iv
  · exact hw.1
  · exact hw.2.1
  · exact hw.2.2.1
  · exact hw.2.2.2

theorem sumW_decW (w : Widths4) (i : Fin 4) (h : 1 ≤ getW w i) :
    sumW (decW w i) + 1 = sumW w := by
  rcases i with ⟨iv, hi⟩
  interval_cases iv
  · have hg : 1 ≤ w.w0 := h
    show sumW (decW w 0) + 1 = sumW w
    simp only [sumW, decW, setW, getW]
    omega
  · have hg : 1 ≤ w.w1 := h
    show sumW (decW w 1) + 1 = sumW w
    simp only [sumW, decW, setW, getW]
    omega
  · have hg : 1 ≤ w.w2 := h
    show sumW (decW w 2) + 1 = sumW w
    simp only [sumW, decW, setW, getW]
    omega
  · have hg : 1 ≤ w.w3 := h
    show sumW (decW w 3) + 1 = sumW w
    simp only [sumW, decW, setW, getW]
    omega

theorem decW_allGe1 {w : Widths4} (i : Fin 4) (h : 1 < getW w i)
    (hw : wAllGe1 w) : wAllGe1 (decW w i) := by
  obtain ⟨ha, hb, hc, hd⟩ := hw
  rcases i with ⟨iv, hi⟩
  interval_cases iv
  · have hg : 1 < w.w0 := h
    show wAllGe1 (decW w 0)
    simp only [wAllGe1, decW, setW, getW]
    omega
  · have hg : 1 < w.w1 := h
    show wAllGe1 (decW w 1)
    simp only [wAllGe1, decW, setW, getW]
    omega
  · have hg : 1 < w.w2 := h
    show wAllGe1 (decW w 2)
    simp only [wAllGe1, decW, setW, getW]
    omega
  · have hg : 1 < w.w3 := h
    show wAllGe1 (decW w 3)
    simp only [wAllGe1, decW, setW, getW]
    omega

theorem sumW_ge4 {w : Widths4} (hw : wAllGe1 w) : 4 ≤ sumW w := by
  obtain ⟨ha, hb, hc, hd⟩ := hw
  simp only [sumW]
  omega

theorem distGt1_le3 (w : Widths4) (i : Fin 4) : distGt1 w i ≤ 3 := by
  fin_cases i <;> simp only [distGt1] <;> split_ifs <;> omega

theorem distGt1_step (w : Widths4) (i : Fin 4) (hle : ¬ 1 < getW w i)
    (hany : 1 < w.w0 ∨ 1 < w.w1 ∨ 1 < w.w2 ∨ 1 < w.w3) :
    distGt1 w (i + 1) + 1 = distGt1 w i := by
  rcases i with ⟨iv, hi⟩
  interval_cases iv
  · have h0 : ¬ 1 < w.w0 := hle
    show distGt1 w 1 + 1 = distGt1 w 0
    simp only [distGt1]
    split_ifs <;> omega
  · have h0 : ¬ 1 < w.w1 := hle
    show distGt1 w 2 + 1 = distGt1 w 1
    simp only [distGt1]
    split_ifs <;> omega
  · have h0 : ¬ 1 < w.w2 := hle
    show distGt1 w 3 + 1 = distGt1 w 2
    simp only [distGt1]
    split_ifs <;> omega
  · have h0 : ¬ 1 < w.w3 := hle
    show distGt1 w 0 + 1 = distGt1 w 3
    simp only [distGt1]
    split_ifs <;> omega

theorem phaseA_allGe1 (usable : Nat) :
    ∀ w, wAllGe1 w → wAllGe1 (phaseA w usable) := by
  have main : ∀ n w, sumW w ≤ n → wAllGe1 w → wAllGe1 (phaseA w usable) := by
    intro n
    induction n with
    | zero =>
        intro w hle hw
        have := sumW_ge4 hw
        omega
    | succ n ih =>
        intro w hle hw
        rw [phaseA]
        split_ifs with h1 h2
        · exact hw
        · have hgt : 1 < getW w (largestIdx w) := by
            have hmin : 6 ≤ minWidths (largestIdx w) := by
              rcases largestIdx w with ⟨iv, hi⟩
              interval_cases iv <;> simp [minWidths]
            omega
          have hdec := sumW_decW w (largestIdx w) (by omega)
          exact ih (decW w (largestIdx w)) (by omega) (decW_allGe1 _ hgt hw)
        · exact hw
  intro w hw
  exact main (sumW w) w le_rfl hw

theorem phaseB_allGe1 (usable : Nat) :
    ∀ w i, wAllGe1 w → wAllGe1 (phaseB w usable i) := by
  have main : ∀ n w i, 4 * sumW w + distGt1 w i ≤ n → wAllGe1 w →
      wAllGe1 (phaseB w usable i) := by
    intro n
    induction n with
    | zero =>
        intro w i hle hw
        have := sumW_ge4 hw
        omega
    | succ n ih =>
        intro w i hle hw
        rw [phaseB]
        split_ifs with h1 h2
        · have hdec := sumW_decW w i (by omega)
          have hd3 := distGt1_le3 (decW w i) (i + 1)
          exact ih (decW w i) (i + 1) (by omega) (decW_allGe1 i h2 hw)
        · have hstep := distGt1_step w i h2 h1.2
          exact ih w (i + 1) (by omega) hw
        · exact hw
  intro w i hw
  exact main (4 * sumW w + distGt1 w i) w i le_rfl hw

theorem phaseCStep_mk0 (a b c d o : Nat) :
    phaseCStep (⟨a, b, c, d⟩, o) 0 =
      (⟨if o = 0 ∨ a - 1 = 0 then a else a - min (a - 1) o, b, c, d⟩,
       if o = 0 ∨ a - 1 = 0 then o else o - min (a - 1) o) := by
  simp only [phaseCStep, getW, setW]
  by_cases h0 : o = 0
  · simp [h0]
  · by_cases h1 : a - 1 = 0
    · simp [h0, h1]
    · simp [h0, h1]

theorem phaseCStep_mk1 (a b c d o : Nat) :
    phaseCStep (⟨a, b, c, d⟩, o) 1 =
      (⟨a, if o = 0 ∨ b - 1 = 0 then b else b - min (b - 1) o, c, d⟩,
       if o = 0 ∨ b - 1 = 0 then o else o - min (b - 1) o) := by
  simp only [phaseCStep, getW, setW]
  by_cases h0 : o = 0
  · simp [h0]
  · by_cases h1 : b - 1 = 0
    · simp [h0, h1]
    · simp [h0, h1]

theorem phaseCStep_mk2 (a b c d o : Nat) :
    phaseCStep (⟨a, b, c, d⟩, o) 2 =
      (⟨a, b, if o = 0 ∨ c - 1 = 0 then c else c - min (c - 1) o, d⟩,
       if o = 0 ∨ c - 1 = 0 then o else o - min (c - 1) o) := by
  simp only [phaseCStep, getW, setW]
  by_cases h0 : o = 0
  · simp [h0]
  · by_cases h1 : c - 1 = 0
    · simp [h0, h1]
    · simp [h0, h1]

theorem phaseCStep_mk3 (a b c d o : Nat) :
    phaseCStep (⟨a, b, c, d⟩, o) 3 =
      (⟨a, b, c, if o = 0 ∨ d - 1 = 0 then d else d - min (d - 1) o⟩,
       if o = 0 ∨ d - 1 = 0 then o else o - min (d - 1) o) := by
  simp only [phaseCStep, getW, setW]
  by_cases h0 : o = 0
  · simp [h0]
  · by_cases h1 : d - 1 = 0
    · simp [h0, h1]
    · simp [h0, h1]

set_option maxHeartbeats 2000000 in
theorem phaseC_bound (w : Widths4) (usable : Nat) (hw : wAllGe1 w)
    (h7 : 7 ≤ usable) :
    totalW (phaseC w usable) ≤ usable ∧ wAllGe1 (phaseC w usable) := by
  obtain ⟨a, b, c, d⟩ := w
  obtain ⟨ha, hb, hc, hd⟩ := hw
  rw [phaseC]
  split_ifs with hg
  · obtain ⟨hlt, hpos⟩ := hg
    simp only [totalW, sumW] at hlt
    rw [phaseCStep_mk0, phaseCStep_mk1, phaseCStep_mk2, phaseCStep_mk3]
    simp only [totalW, sumW, wAllGe1]
    split_ifs <;> dsimp only at * <;> omega
  · simp only [totalW, sumW, wAllGe1] at *
    constructor
    · omega
    · omega

theorem clampMax1_eq_self {w : Widths4} (hw : wAllGe1 w) : clampMax1 w = w := by
  obtain ⟨ha, hb, hc, hd⟩ := hw
  unfold clampMax1
  have h0 : max 1 w.w0 = w.w0 := by omega
  have h1 : max 1 w.w1 = w.w1 := by omega
  have h2 : max 1 w.w2 = w.w2 := by omega
  have h3 : max 1 w.w3 = w.w3 := by omega
  rw [h0, h1, h2, h3]

theorem clampMax1_allGe1 (w : Widths4) : wAllGe1 (clampMax1 w) := by
  unfold clampMax1 wAllGe1
  refine ⟨?_, ?_, ?_, ?_⟩ <;> simp

theorem initWidths_allGe1 (d0 d1 d2 d3 : Nat) :
    wAllGe1 (initWidths d0 d1 d2 d3) := by
  simp only [initWidths, initWidth, wAllGe1, minWidths, maxWidths, headerLen]
  omega

/-! ## Claim C2 -/

/-- C2 counterexample: with no sample rows and an available width of 4
(equal to the column count), the negotiated widths are `(1,1,1,1)` whose
sum plus the three inter-column gaps is 7 > 4 — so "available width ≥
column count" does not make the widths fit; widths are clamped to 1 and
the frame is treated as degenerate instead. -/
theorem layout_width_bound_fails_at_columnCount :
    negotiateWidths [] [] [] [] 4 = ⟨1, 1, 1, 1⟩ ∧
    ¬ totalW (negotiateWidths [] [] [] [] 4) ≤ 4 := by
  have heval : negotiateWidths [] [] [] [] 4 = ⟨1, 1, 1, 1⟩ := by
    simp [negotiateWidths, computeWidths, columnLength, initWidths, initWidth,
      phaseA, phaseB, phaseC, phaseCStep, largestIdx, getW, setW, decW,
      clampMax1, totalW, sumW, minWidths, maxWidths, headerLen]
  refine ⟨heval, ?_⟩
  rw [heval]
  decide

/-- C2 (amended): for every sample data and every available width that is
at least `2*columnCount - 1 = 7` (room for one cell column at width 1 plus
one gap per remaining column), the negotiated widths sum with gaps to at
most the available width; and every returned width is ≥ 1 for every
available width whatsoever. -/
theorem layout_widths_bound_amended (s0 s1 s2 s3 : List (List Char))
    (usable : Nat) (h7 : 7 ≤ usable) :
    totalW (negotiateWidths s0 s1 s2 s3 usable) ≤ usable ∧
    wAllGe1 (negotiateWidths s0 s1 s2 s3 usable) ∧
    (∀ u : Nat, wAllGe1 (negotiateWidths s0 s1 s2 s3 u)) := by
  have h1 := initWidths_allGe1 (columnLength 0 s0) (columnLength 1 s1)
    (columnLength 2 s2) (columnLength 3 s3)
  have h2 := phaseA_allGe1 usable _ h1
  have h3 := phaseB_allGe1 usable _ 0 h2
  have h4 := phaseC_bound _ usable h3 h7
  refine ⟨?_, ?_, ?_⟩
  · unfold negotiateWidths computeWidths
    rw [clampMax1_eq_self h4.2]
    exact h4.1
  · unfold negotiateWidths computeWidths
    exact clampMax1_allGe1 _
  · intro u
    unfold negotiateWidths computeWidths
    exact clampMax1_allGe1 _

/-- Witness for C2 (amended) at empty samples and available width 27. -/
theorem layout_widths_bound_amended_witness :
    totalW (negotiateWidths [] [] [] [] 27) ≤ 27 ∧
    wAllGe1 (negotiateWidths [] [] [] [] 27) ∧
    (∀ u : Nat, wAllGe1 (negotiateWidths [] [] [] [] u)) :=
  layout_widths_bound_amended [] [] [] [] 27 (by omega)
